import Mathlib

set_option autoImplicit false

/-!
Verification of the `mcache` expiring key-value cache.

The Go source (`cache.go`) is embedded shallowly:

* a `time.Time` instant is an `Int`; Go's `a.Before(b)` is `a < b` and
  `a.After(b)` is `a > b`; a `time.Duration` is an `Int` added to instants;
* the Go map `map[K]item[V]` is an association list `List (K × item V)` with
  pairwise-distinct keys (`WF`), looked up by first match (`lookupA`) and
  mutated by `eraseKey` / cons;
* every public operation holds the single mutex `mu` for its whole body, so
  each operation is modelled as one atomic function from cache state (plus the
  `time.Now()` reading it performs) to result and new cache state;
* one tick of the background `cleanup` goroutine is `cleanupPass`;
* the `done` channel is the flag `doneClosed`; Go's `close` on a channel
  succeeds once and panics on an already-closed channel (Go runtime
  semantics), modelled by `Option` with `none` for the panic.
-/

namespace Mcache

/-- Go struct `item[V]`: a stored value together with its absolute expiry
instant (`expiryTime`). -/
structure item (V : Type) where
  value : V
  expiryTime : Int
  deriving DecidableEq

/-- Go struct `Cache[K, V]`: the backing store `items`, the fixed `ttl`, and
whether the `done` channel has been closed. The mutex is not part of the
state because every operation is modelled as one atomic step. -/
structure Cache (K V : Type) where
  items : List (K × item V)
  ttl : Int
  doneClosed : Bool
  deriving DecidableEq

variable {K V : Type} [DecidableEq K]

/-- Go map indexing `m[k]`: the first pair whose key equals `k`, if any. -/
def lookupA {A : Type} : List (K × A) → K → Option A
  | [], _ => none
  | p :: rest, k => if p.1 = k then some p.2 else lookupA rest k

/-- Go `delete(m, k)`: drop every pair whose key is `k` (at most one when the
store is well formed). -/
def eraseKey {A : Type} (l : List (K × A)) (k : K) : List (K × A) :=
  l.filter (fun p => decide (p.1 ≠ k))

/-- The keys currently present in the store. -/
def keysOf (c : Cache K V) : List K := c.items.map Prod.fst

/-- Well-formedness: a Go map holds at most one entry per key. -/
def WF (c : Cache K V) : Prop := (keysOf c).Nodup

instance decWF (c : Cache K V) : Decidable (WF c) :=
  inferInstanceAs (Decidable ((keysOf c).Nodup))

/-- Go `NewCache(ttl)`: empty store, the given `ttl`, `done` channel open.
(The spawned `cleanup` goroutine is modelled separately by `cleanupPass`.) -/
def NewCache (K V : Type) [DecidableEq K] (ttl : Int) : Cache K V :=
  { items := [], ttl := ttl, doneClosed := false }

/-- The Boolean test `now.Before(it.expiryTime)` used by `GetAll` and
`Count` to keep an entry. -/
def strictLive (now : Int) (p : K × item V) : Bool := decide (now < p.2.expiryTime)

/-- Go `GetAll()`: scans the store under the lock; entries with
`now.Before(expiryTime)` go into the returned snapshot, the others are
deleted from the store. -/
def GetAll (c : Cache K V) (now : Int) : List (K × V) × Cache K V :=
  ((c.items.filter (strictLive now)).map (fun p => (p.1, p.2.value)),
   { c with items := c.items.filter (strictLive now) })

/-- Go `Set(key, value)`: unconditionally store `key ↦ item{value, now + ttl}`,
overwriting any previous entry for `key`. -/
def Set (c : Cache K V) (now : Int) (key : K) (value : V) : Cache K V :=
  { c with items := (key, ⟨value, now + c.ttl⟩) :: eraseKey c.items key }

/-- Go `Get(key)`: if the key is absent or `now.After(expiryTime)`, delete the
key and return the zero value with `false`; otherwise return the stored value
with `true` and leave the store unchanged. -/
def Get [Inhabited V] (c : Cache K V) (now : Int) (key : K) :
    (V × Bool) × Cache K V :=
  match lookupA c.items key with
  | none => ((default, false), { c with items := eraseKey c.items key })
  | some it =>
    if now > it.expiryTime then
      ((default, false), { c with items := eraseKey c.items key })
    else
      ((it.value, true), c)

/-- Go `Count()`: scans the store under the lock; entries with
`now.Before(expiryTime)` are counted, the others are deleted. -/
def Count (c : Cache K V) (now : Int) : Nat × Cache K V :=
  ((c.items.filter (strictLive now)).length,
   { c with items := c.items.filter (strictLive now) })

/-- Go `Delete(key)`: unconditionally remove the entry for `key`. -/
def Delete (c : Cache K V) (key : K) : Cache K V :=
  { c with items := eraseKey c.items key }

/-- Go `Release(key)`: same check as `Get`, but on the positive path the entry
is deleted in the same critical section before the value is returned. -/
def Release [Inhabited V] (c : Cache K V) (now : Int) (key : K) :
    (V × Bool) × Cache K V :=
  match lookupA c.items key with
  | none => ((default, false), { c with items := eraseKey c.items key })
  | some it =>
    if now > it.expiryTime then
      ((default, false), { c with items := eraseKey c.items key })
    else
      ((it.value, true), { c with items := eraseKey c.items key })

/-- One tick of the Go `cleanup` goroutine: under the lock, delete every entry
with `now.After(expiryTime)`. -/
def cleanupPass (c : Cache K V) (now : Int) : Cache K V :=
  { c with items := c.items.filter (fun p => !decide (now > p.2.expiryTime)) }

/-- Go `close(ch)` on the `done` channel: closing an open channel closes it;
closing an already-closed channel panics (Go runtime semantics). `none`
models the panic. -/
def closeChan (closed : Bool) : Option Bool :=
  if closed then none else some true

/-- Go `Close()`: `close(c.done)`. -/
def Close (c : Cache K V) : Option (Cache K V) :=
  (closeChan c.doneClosed).map (fun b => { c with doneClosed := b })

/-- A one-entry cache over `Nat` keys and values whose single entry `0 ↦ 7`
expires exactly at instant `5`; used to probe the expiry boundary. -/
def boundaryCache : Cache Nat Nat :=
  { items := [(0, ⟨7, 5⟩)], ttl := 10, doneClosed := false }

/-! ### Association-list lemmas -/

theorem lookupA_cons {A : Type} (p : K × A) (rest : List (K × A)) (k : K) :
    lookupA (p :: rest) k = if p.1 = k then some p.2 else lookupA rest k := rfl

theorem eraseKey_cons {A : Type} (p : K × A) (rest : List (K × A)) (k : K) :
    eraseKey (p :: rest) k
      = if p.1 = k then eraseKey rest k else p :: eraseKey rest k := by
  by_cases hp : p.1 = k <;> simp [eraseKey, List.filter_cons, hp]

theorem lookupA_eraseKey_self {A : Type} (l : List (K × A)) (k : K) :
    lookupA (eraseKey l k) k = none := by
  induction l with
  | nil => rfl
  | cons p rest ih =>
    rw [eraseKey_cons]
    by_cases h : p.1 = k
    · rw [if_pos h]; exact ih
    · rw [if_neg h, lookupA_cons, if_neg h]; exact ih

theorem lookupA_eraseKey_ne {A : Type} (l : List (K × A)) (k k' : K)
    (h : k' ≠ k) : lookupA (eraseKey l k) k' = lookupA l k' := by
  induction l with
  | nil => rfl
  | cons p rest ih =>
    rw [eraseKey_cons, lookupA_cons]
    by_cases hp : p.1 = k
    · have hpk : ¬ p.1 = k' := fun hk => h (hk.symm.trans hp)
      rw [if_pos hp, if_neg hpk]; exact ih
    · rw [if_neg hp, lookupA_cons]
      by_cases hq : p.1 = k'
      · rw [if_pos hq, if_pos hq]
      · rw [if_neg hq, if_neg hq]; exact ih

theorem eraseKey_of_lookupA_none {A : Type} (l : List (K × A)) (k : K)
    (h : lookupA l k = none) : eraseKey l k = l := by
  induction l with
  | nil => rfl
  | cons p rest ih =>
    rw [lookupA_cons] at h
    by_cases hp : p.1 = k
    · rw [if_pos hp] at h; cases h
    · rw [if_neg hp] at h
      rw [eraseKey_cons, if_neg hp, ih h]

theorem eraseKey_idem {A : Type} (l : List (K × A)) (k : K) :
    eraseKey (eraseKey l k) k = eraseKey l k :=
  eraseKey_of_lookupA_none _ _ (lookupA_eraseKey_self l k)

theorem lookupA_eq_none_of_not_mem {A : Type} (l : List (K × A)) (k : K)
    (h : k ∉ l.map Prod.fst) : lookupA l k = none := by
  induction l with
  | nil => rfl
  | cons p rest ih =>
    simp only [List.map_cons, List.mem_cons, not_or] at h
    have hp : p.1 ≠ k := fun hk => h.1 hk.symm
    simp [lookupA, hp, ih h.2]

/-- On a store with pairwise-distinct keys, every stored pair is what lookup
of its key returns. -/
theorem lookupA_of_mem {A : Type} (l : List (K × A)) (p : K × A)
    (hnd : (l.map Prod.fst).Nodup) (hm : p ∈ l) : lookupA l p.1 = some p.2 := by
  induction l with
  | nil => cases hm
  | cons q rest ih =>
    simp only [List.map_cons, List.nodup_cons] at hnd
    rcases List.mem_cons.mp hm with h | h
    · subst h; simp [lookupA]
    · have hq : q.1 ≠ p.1 := by
        intro hk
        exact hnd.1 (hk ▸ (List.mem_map.mpr ⟨p, h, rfl⟩))
      simp [lookupA, hq, ih hnd.2 h]

/-- On a store with pairwise-distinct keys, looking up a key after a filter
keeps the entry exactly when the filter predicate accepts it. -/
theorem lookupA_filter {A : Type} (f : K × A → Bool) (l : List (K × A)) (k : K)
    (hnd : (l.map Prod.fst).Nodup) :
    lookupA (l.filter f) k
      = (lookupA l k).bind (fun a => if f (k, a) then some a else none) := by
  induction l with
  | nil => rfl
  | cons p rest ih =>
    simp only [List.map_cons, List.nodup_cons] at hnd
    by_cases hp : p.1 = k
    · have hpair : (k, p.2) = p := by
        cases p; cases hp; rfl
      by_cases hf : f p = true
      · simp [List.filter_cons, hf, lookupA, hp, hpair]
      · have hnone : lookupA rest k = none :=
          lookupA_eq_none_of_not_mem rest k (hp ▸ hnd.1)
        have hfilt : lookupA (rest.filter f) k = none := by
          rw [ih hnd.2, hnone]; rfl
        simp [List.filter_cons, hf, lookupA, hp, hpair, hfilt]
      -- both branches agree with the bind on the right-hand side
    · by_cases hf : f p = true
      · simp [List.filter_cons, hf, lookupA, hp, ih hnd.2]
      · simp [List.filter_cons, hf, lookupA, hp, ih hnd.2]

/-- Lookup commutes with projecting entries to their stored values, as the
`GetAll` snapshot does. -/
theorem lookupA_map_value (l : List (K × item V)) (k : K) :
    lookupA (l.map (fun p => (p.1, p.2.value))) k
      = (lookupA l k).map item.value := by
  induction l with
  | nil => rfl
  | cons p rest ih =>
    by_cases hp : p.1 = k
    · simp [lookupA, hp]
    · simp [lookupA, hp, ih]

/-- Erasing a key does not change a filtered store when every pair stored at
that key fails the filter anyway. -/
theorem filter_eraseKey_eq {A : Type} (f : K × A → Bool) (l : List (K × A))
    (k : K) (hfail : ∀ p ∈ l, p.1 = k → f p = false) :
    (eraseKey l k).filter f = l.filter f := by
  induction l with
  | nil => rfl
  | cons p rest ih =>
    have ihrest := ih (fun q hq hqk => hfail q (List.mem_cons_of_mem p hq) hqk)
    rw [eraseKey_cons]
    by_cases hp : p.1 = k
    · have hfp : ¬ f p = true := by
        simp [hfail p (List.mem_cons_self p rest) hp]
      rw [if_pos hp, List.filter_cons, if_neg hfp, ihrest]
    · rw [if_neg hp, List.filter_cons, List.filter_cons]
      by_cases hf : f p = true
      · rw [if_pos hf, if_pos hf, ihrest]
      · rw [if_neg hf, if_neg hf, ihrest]

/-- Counting the keys whose looked-up entry passes a test equals counting the
pairs that pass it, on a store with pairwise-distinct keys. -/
theorem length_filter_keys {A : Type} (f : K × A → Bool) (l : List (K × A))
    (hnd : (l.map Prod.fst).Nodup) :
    ((l.map Prod.fst).filter (fun k =>
        (lookupA l k).any (fun a => f (k, a)))).length
      = (l.filter f).length := by
  induction l with
  | nil => rfl
  | cons p rest ih =>
    simp only [List.map_cons, List.nodup_cons] at hnd
    have hself : lookupA (p :: rest) p.1 = some p.2 := by
      rw [lookupA_cons, if_pos rfl]
    have hcond : ((lookupA (p :: rest) p.1).any (fun a => f (p.1, a))) = f p := by
      rw [hself]; rfl
    have hcongr :
        (rest.map Prod.fst).filter (fun k =>
          (lookupA (p :: rest) k).any (fun a => f (k, a)))
        = (rest.map Prod.fst).filter (fun k =>
          (lookupA rest k).any (fun a => f (k, a))) := by
      apply List.filter_congr
      intro k hk
      have hp : ¬ p.1 = k := fun h => hnd.1 (h ▸ hk)
      rw [lookupA_cons, if_neg hp]
    rw [List.map_cons]
    simp only [List.filter_cons, hcond, hcongr]
    by_cases hf : f p = true
    · rw [if_pos hf, if_pos hf, List.length_cons, List.length_cons, ih hnd.2]
    · rw [if_neg hf, if_neg hf, ih hnd.2]

/-- After erasing a key, no pair with that key remains. -/
theorem filter_key_eraseKey {A : Type} (l : List (K × A)) (k : K) :
    (eraseKey l k).filter (fun p => decide (p.1 = k)) = [] := by
  induction l with
  | nil => rfl
  | cons p rest ih =>
    rw [eraseKey_cons]
    by_cases hp : p.1 = k
    · rw [if_pos hp]; exact ih
    · rw [if_neg hp, List.filter_cons, if_neg (by simpa using hp)]; exact ih

/-- A `Get` that happens no later than `ttl` after a `Set` of the same key
finds the just-written value and leaves the store unchanged. -/
theorem get_set_same (c : Cache Nat Nat) (k v : Nat) (t1 t2 : Int)
    (h : t2 ≤ t1 + c.ttl) :
    Get (Set c t1 k v) t2 k = ((v, true), Set c t1 k v) := by
  have hl : lookupA (Set c t1 k v).items k = some ⟨v, t1 + c.ttl⟩ := by
    rw [show (Set c t1 k v).items
        = (k, ⟨v, t1 + c.ttl⟩) :: eraseKey c.items k from rfl]
    rw [lookupA_cons, if_pos rfl]
  simp [Get, hl, show ¬ t2 > t1 + c.ttl by omega]

/-! ### The claims -/

/-- C3: for all keys `k` and values `v`, `Set k v` immediately followed by
`Get k` returns `(v, true)`, provided the TTL has not elapsed in between (and
sequential execution rules out intervening operations). -/
theorem C3_set_get_roundtrip (c : Cache Nat Nat) (k v : Nat) (t1 t2 : Int)
    (h : t2 ≤ t1 + c.ttl) :
    (Get (Set c t1 k v) t2 k).1 = (v, true) := by
  rw [get_set_same c k v t1 t2 h]

/-- C3 witness: a concrete `Set`-then-`Get` round trip. -/
theorem C3_witness :
    (0:Int) ≤ 0 + (NewCache Nat Nat 10).ttl
    ∧ (Get (Set (NewCache Nat Nat 10) 0 1 42) 0 1).1 = (42, true) :=
  ⟨by decide, C3_set_get_roundtrip (NewCache Nat Nat 10) 1 42 0 0 (by decide)⟩

/-- C7: `Delete k` removes `k`'s entry if present regardless of expiry, leaves
other keys untouched, is a no-op when `k` is absent, and is idempotent. -/
theorem C7_delete_unconditional_idempotent (c : Cache Nat Nat) (k : Nat) :
    lookupA (Delete c k).items k = none
    ∧ (∀ k', k' ≠ k → lookupA (Delete c k).items k' = lookupA c.items k')
    ∧ (lookupA c.items k = none → Delete c k = c)
    ∧ Delete (Delete c k) k = Delete c k := by
  refine ⟨lookupA_eraseKey_self _ _,
    fun k' h => lookupA_eraseKey_ne _ _ _ h, ?_, ?_⟩
  · intro h
    show { c with items := eraseKey c.items k } = c
    rw [eraseKey_of_lookupA_none _ _ h]
  · show { c with items := eraseKey (eraseKey c.items k) k }
      = { c with items := eraseKey c.items k }
    rw [eraseKey_idem]

/-- C7 witness: concrete removal, non-interference and idempotence. -/
theorem C7_witness :
    lookupA (Delete boundaryCache 0).items 0 = none
    ∧ lookupA (Delete boundaryCache 0).items 1 = lookupA boundaryCache.items 1
    ∧ Delete (Delete boundaryCache 0) 0 = Delete boundaryCache 0 :=
  ⟨(C7_delete_unconditional_idempotent boundaryCache 0).1,
   (C7_delete_unconditional_idempotent boundaryCache 0).2.1 1 (by decide),
   (C7_delete_unconditional_idempotent boundaryCache 0).2.2.2⟩

/-- C10: a single `Close` returns normally, while a second `Close` on the same
instance closes an already-closed channel and panics (modelled as `none`). -/
theorem C10_double_close_panics (ttl : Int) :
    (Close (NewCache Nat Nat ttl)).isSome = true
    ∧ (Close (NewCache Nat Nat ttl)).bind Close = none := by
  exact ⟨rfl, rfl⟩

/-- C2 counterexample: the boundary entry has `expiryTime = 5`, which is not
after `now = 5`, yet `Get` at instant 5 reports found rather than taking the
claimed negative path for `expiry ≤ now`. -/
theorem C2_counterexample :
    ¬ ((∃ it, lookupA boundaryCache.items 0 = some it ∧ it.expiryTime ≤ 5) →
        (Get boundaryCache 5 0).1.2 = false) :=
  fun h => absurd (h ⟨⟨7, 5⟩, by decide, by decide⟩) (by decide)

/-- C2 (amended): `Get` reports not-found with the zero value, removing the
key, exactly when no entry exists or the entry's expiry is strictly before
`now`; otherwise (`now ≤ expiry`, i.e. strictly live or exactly at the
boundary) it returns the stored value with found=true and leaves the store
unchanged. -/
theorem C2_get_found_iff (c : Cache Nat Nat) (k : Nat) (now : Int)
    (h : WF c) :
    ((Get c now k).1.2 = true
      ↔ ∃ it, lookupA c.items k = some it ∧ now ≤ it.expiryTime)
    ∧ (∀ it, lookupA c.items k = some it → now ≤ it.expiryTime →
        Get c now k = ((it.value, true), c))
    ∧ ((Get c now k).1.2 = false →
        (Get c now k).1.1 = 0
        ∧ lookupA (Get c now k).2.items k = none
        ∧ ∀ k', k' ≠ k →
            lookupA (Get c now k).2.items k' = lookupA c.items k') := by
  cases hl : lookupA c.items k with
  | none =>
    have hg : Get c now k
        = ((default, false), { c with items := eraseKey c.items k }) := by
      simp [Get, hl]
    refine ⟨?_, fun it hit => Option.noConfusion hit, fun _ => ⟨?_, ?_, ?_⟩⟩
    · rw [hg]
      exact ⟨fun hfound => Bool.noConfusion hfound,
        fun hex => Option.noConfusion hex.choose_spec.1⟩
    · rw [hg]; rfl
    · rw [hg]
      exact lookupA_eraseKey_self _ _
    · intro k' hk'
      rw [hg]
      exact lookupA_eraseKey_ne _ _ _ hk'
  | some it =>
    by_cases hexp : now > it.expiryTime
    · have hg : Get c now k
          = ((default, false), { c with items := eraseKey c.items k }) := by
        simp [Get, hl, hexp]
      refine ⟨?_, ?_, fun _ => ⟨?_, ?_, ?_⟩⟩
      · rw [hg]
        constructor
        · intro hfound
          exact Bool.noConfusion hfound
        · rintro ⟨it', hit', hle⟩
          injection hit' with h'
          subst h'
          exact absurd hle (by omega)
      · intro it' hit' hle
        injection hit' with h'
        subst h'
        exact absurd hle (by omega)
      · rw [hg]; rfl
      · rw [hg]
        exact lookupA_eraseKey_self _ _
      · intro k' hk'
        rw [hg]
        exact lookupA_eraseKey_ne _ _ _ hk'
    · have hg : Get c now k = ((it.value, true), c) := by
        simp [Get, hl, hexp]
      refine ⟨?_, ?_, ?_⟩
      · rw [hg]
        exact ⟨fun _ => ⟨it, rfl, by omega⟩, fun _ => rfl⟩
      · intro it' hit' hle
        injection hit' with h'
        subst h'
        exact hg
      · intro hfound
        rw [hg] at hfound
        exact Bool.noConfusion hfound

/-- C2 witness: the amended positive path on a concrete strictly-live entry. -/
theorem C2_witness :
    WF boundaryCache
    ∧ Get boundaryCache 4 0 = ((7, true), boundaryCache) :=
  ⟨by decide,
   (C2_get_found_iff boundaryCache 0 4 (by decide)).2.1 ⟨7, 5⟩ (by decide)
     (by decide)⟩

/-- C1 counterexample: at `now = 5`, `Get` still finds the boundary entry
(`expiry = 5`), but `Count` does not count it, so `Count` differs from the
number of keys a `Get` at the same instant would find. -/
theorem C1_counterexample :
    ¬ ((Count boundaryCache 5).1
        = ((keysOf boundaryCache).filter
            (fun k => (Get boundaryCache 5 k).1.2)).length) := by
  decide

/-- C1 (amended): `Count` returns the number of stored keys whose entry is
strictly live (`now < expiry`) — which matches the number of Get-found keys
except for entries expiring exactly at `now` — and while computing this it
removes every entry with `expiry ≤ now`, keeping the strictly live entries
untouched. -/
theorem C1_count_strict_live (c : Cache Nat Nat) (now : Int) (h : WF c) :
    (Count c now).1
      = ((keysOf c).filter
          (fun k => (lookupA c.items k).any
            (fun it => decide (now < it.expiryTime)))).length
    ∧ ∀ k, lookupA (Count c now).2.items k
        = (lookupA c.items k).bind
            (fun it => if now < it.expiryTime then some it else none) := by
  constructor
  · exact (length_filter_keys (strictLive now) c.items h).symm
  · intro k
    have hf := lookupA_filter (strictLive now) c.items k h
    rw [show (Count c now).2.items = c.items.filter (strictLive now) from rfl,
      hf]
    cases lookupA c.items k with
    | none => rfl
    | some it => simp [strictLive]

/-- C1 witness: on a concrete cache with one strictly-live entry, the count
and the post-`Count` store match the amended description. -/
theorem C1_witness :
    WF boundaryCache
    ∧ (Count boundaryCache 4).1
        = ((keysOf boundaryCache).filter
            (fun k => (lookupA boundaryCache.items k).any
              (fun it => decide ((4:Int) < it.expiryTime)))).length
    ∧ lookupA (Count boundaryCache 4).2.items 0
        = (lookupA boundaryCache.items 0).bind
            (fun it => if (4:Int) < it.expiryTime then some it else none) :=
  ⟨by decide, (C1_count_strict_live boundaryCache 4 (by decide)).1,
   (C1_count_strict_live boundaryCache 4 (by decide)).2 0⟩

/-- C4 counterexample: at the boundary instant `now = expiry = 5`, `Release`
returns the stored value with found=true although the entry is not live
(`now < expiry` fails), contradicting the claim's positive-path condition. -/
theorem C4_counterexample :
    ¬ ((Release boundaryCache 5 0).1 = (7, true) →
        ((lookupA boundaryCache.items 0).any
          (fun it => decide ((5:Int) < it.expiryTime))) = true) := by
  decide

/-- C4 (amended): if `Release` returns `(v, true)` then the entry held `v` and
passed `Get`'s check (`now ≤ expiry`; live except possibly at the exact
boundary instant), and it is removed in the same step, so an immediately
subsequent `Get` returns `(0, false)`; when `Release` reports not-found it
coincides with `Get` on both the result and the store, evicting a
present-but-strictly-expired entry. -/
theorem C4_release_atomic (c : Cache Nat Nat) (k : Nat) (now now' : Int)
    (h : WF c) :
    (∀ v, (Release c now k).1 = (v, true) →
      ∃ it, lookupA c.items k = some it ∧ it.value = v ∧ now ≤ it.expiryTime
        ∧ lookupA (Release c now k).2.items k = none
        ∧ (Get (Release c now k).2 now' k).1 = (0, false))
    ∧ ((Release c now k).1.2 = false → Release c now k = Get c now k) := by
  cases hl : lookupA c.items k with
  | none =>
    have hr : Release c now k
        = ((default, false), { c with items := eraseKey c.items k }) := by
      simp [Release, hl]
    constructor
    · intro v hv
      rw [hr] at hv
      have hvb : false = true := congrArg (fun q => q.2) hv
      exact Bool.noConfusion hvb
    · intro _
      rw [hr]
      simp [Get, hl]
  | some it =>
    by_cases hexp : now > it.expiryTime
    · have hr : Release c now k
          = ((default, false), { c with items := eraseKey c.items k }) := by
        simp [Release, hl, hexp]
      constructor
      · intro v hv
        rw [hr] at hv
        have hvb : false = true := congrArg (fun q => q.2) hv
        exact Bool.noConfusion hvb
      · intro _
        rw [hr]
        simp [Get, hl, hexp]
    · have hr : Release c now k
          = ((it.value, true), { c with items := eraseKey c.items k }) := by
        simp [Release, hl, hexp]
      constructor
      · intro v hv
        rw [hr] at hv
        have hv' : it.value = v := congrArg (fun q => q.1) hv
        refine ⟨it, rfl, hv', by omega, ?_, ?_⟩
        · rw [hr]
          exact lookupA_eraseKey_self _ _
        · rw [hr]
          have hnone : lookupA (eraseKey c.items k) k = none :=
            lookupA_eraseKey_self _ _
          simp [Get, hnone]
      · intro hfalse
        rw [hr] at hfalse
        have hvb : true = false := hfalse
        exact Bool.noConfusion hvb

/-- C4 witness: a concrete positive `Release` removes the entry and a
subsequent `Get` misses. -/
theorem C4_witness :
    WF boundaryCache
    ∧ ∃ it, lookupA boundaryCache.items 0 = some it ∧ it.value = 7
        ∧ (4:Int) ≤ it.expiryTime
        ∧ lookupA (Release boundaryCache 4 0).2.items 0 = none
        ∧ (Get (Release boundaryCache 4 0).2 4 0).1 = (0, false) :=
  ⟨by decide,
   (C4_release_atomic boundaryCache 0 4 4 (by decide)).1 7 (by decide)⟩

/-- C5: the `GetAll` snapshot holds exactly the currently live entries
(`now` strictly before expiry), each key mapped to its stored value, and
contains no expired entry. -/
theorem C5_getall_live_snapshot (c : Cache Nat Nat) (now : Int) (k v : Nat)
    (h : WF c) :
    lookupA (GetAll c now).1 k = some v
      ↔ ∃ it, lookupA c.items k = some it ∧ now < it.expiryTime
          ∧ it.value = v := by
  have h1 : lookupA (GetAll c now).1 k
      = ((lookupA c.items k).bind
          (fun a => if strictLive now (k, a) then some a else none)).map
            item.value := by
    rw [show (GetAll c now).1
        = (c.items.filter (strictLive now)).map (fun p => (p.1, p.2.value))
        from rfl]
    rw [lookupA_map_value, lookupA_filter _ _ _ h]
  rw [h1]
  cases hl : lookupA c.items k with
  | none => simp
  | some it =>
    by_cases hlive : now < it.expiryTime
    · simp [strictLive, hlive, eq_comm]
    · simp [strictLive, hlive]

/-- C5 witness: `Set a` at time 0, let it expire, `Set b` at time 20; the
snapshot at time 25 contains `b` with its stored value. -/
theorem C5_witness :
    WF (Set (Set (NewCache Nat Nat 10) 0 0 1) 20 1 2)
    ∧ (lookupA (GetAll (Set (Set (NewCache Nat Nat 10) 0 0 1) 20 1 2) 25).1 1
          = some 2
      ↔ ∃ it, lookupA (Set (Set (NewCache Nat Nat 10) 0 0 1) 20 1 2).items 1
            = some it ∧ (25:Int) < it.expiryTime ∧ it.value = 2) :=
  ⟨by decide,
   C5_getall_live_snapshot (Set (Set (NewCache Nat Nat 10) 0 0 1) 20 1 2)
     25 1 2 (by decide)⟩

/-- C6 counterexample: the boundary entry has `expiry = 5 ≤ 5 = now`, yet one
cleanup pass at instant 5 does not remove it, contradicting the claimed
removal of every entry with `expiry ≤ now`. -/
theorem C6_counterexample :
    ((lookupA boundaryCache.items 0).any
      (fun it => decide (it.expiryTime ≤ 5))) = true
    ∧ lookupA (cleanupPass boundaryCache 5).items 0 ≠ none := by
  decide

/-- C6 (amended): one pass of the background reclamation task removes exactly
the entries whose expiry is strictly before `now` (`now.After(expiry)`), and
leaves every other entry — including those expiring exactly at `now` — with
its key and value unchanged. -/
theorem C6_cleanup_strictly_expired (c : Cache Nat Nat) (now : Int)
    (h : WF c) :
    ∀ k, lookupA (cleanupPass c now).items k
      = (lookupA c.items k).bind
          (fun it => if it.expiryTime < now then none else some it) := by
  intro k
  have hf := lookupA_filter (fun p => !decide (now > p.2.expiryTime))
    c.items k h
  rw [show (cleanupPass c now).items
      = c.items.filter (fun p => !decide (now > p.2.expiryTime)) from rfl, hf]
  cases lookupA c.items k with
  | none => rfl
  | some it =>
    by_cases hlt : it.expiryTime < now
    · simp [hlt]
    · simp [hlt]

/-- C6 witness: a cleanup pass at instant 5 keeps the entry expiring exactly
at 5, as the amended statement prescribes. -/
theorem C6_witness :
    WF boundaryCache
    ∧ lookupA (cleanupPass boundaryCache 5).items 0
        = (lookupA boundaryCache.items 0).bind
            (fun it => if it.expiryTime < (5:Int) then none else some it) :=
  ⟨by decide, C6_cleanup_strictly_expired boundaryCache 5 (by decide) 0⟩

/-- C8: `Set k v1; Set k v2; Get k` within the TTL returns `(v2, true)` —
last write wins — and the store holds exactly one entry for `k`. -/
theorem C8_last_write_wins (c : Cache Nat Nat) (k v1 v2 : Nat)
    (t1 t2 t3 : Int) (h : t3 ≤ t2 + c.ttl) :
    (Get (Set (Set c t1 k v1) t2 k v2) t3 k).1 = (v2, true)
    ∧ ((Set (Set c t1 k v1) t2 k v2).items.filter
        (fun p => decide (p.1 = k))).length = 1 := by
  constructor
  · rw [get_set_same (Set c t1 k v1) k v2 t2 t3 h]
  · rw [show (Set (Set c t1 k v1) t2 k v2).items
        = (k, ⟨v2, t2 + c.ttl⟩) :: eraseKey (Set c t1 k v1).items k from rfl]
    rw [List.filter_cons, if_pos (by simp), filter_key_eraseKey]
    rfl

/-- C8 witness: a concrete overwrite followed by a `Get` within the TTL. -/
theorem C8_witness :
    (0:Int) ≤ 0 + (NewCache Nat Nat 10).ttl
    ∧ ((Get (Set (Set (NewCache Nat Nat 10) 0 1 41) 0 1 42) 0 1).1 = (42, true)
      ∧ ((Set (Set (NewCache Nat Nat 10) 0 1 41) 0 1 42).items.filter
          (fun p => decide (p.1 = 1))).length = 1) :=
  ⟨by decide,
   C8_last_write_wins (NewCache Nat Nat 10) 1 41 42 0 0 0 (by decide)⟩

/-- C9: at the instant `now` equal to an entry's expiry, `Get` and `Release`
treat the entry as live (value with found=true) while `Count` and `GetAll`
treat it as expired, excluding it from their results and deleting it: the
liveness boundary differs across the operations. -/
theorem C9_boundary_disagreement (c : Cache Nat Nat) (k v : Nat) (now : Int)
    (hwf : WF c) (h : lookupA c.items k = some ⟨v, now⟩) :
    (Get c now k).1 = (v, true)
    ∧ (Release c now k).1 = (v, true)
    ∧ lookupA (Count c now).2.items k = none
    ∧ (Count c now).1 = (Count (Delete c k) now).1
    ∧ lookupA (GetAll c now).1 k = none
    ∧ lookupA (GetAll c now).2.items k = none := by
  have hstore : lookupA (c.items.filter (strictLive now)) k = none := by
    rw [lookupA_filter _ _ _ hwf, h]
    simp [strictLive]
  have herase : (eraseKey c.items k).filter (strictLive now)
      = c.items.filter (strictLive now) := by
    refine filter_eraseKey_eq _ _ _ (fun p hp hpk => ?_)
    have hl := lookupA_of_mem c.items p hwf hp
    rw [hpk, h] at hl
    injection hl with h2
    rw [show strictLive now p = decide (now < p.2.expiryTime) from rfl, ← h2]
    simp
  refine ⟨?_, ?_, hstore, ?_, ?_, hstore⟩
  · simp [Get, h]
  · simp [Release, h]
  · show (c.items.filter (strictLive now)).length
      = ((eraseKey c.items k).filter (strictLive now)).length
    rw [herase]
  · rw [show (GetAll c now).1
        = (c.items.filter (strictLive now)).map (fun p => (p.1, p.2.value))
        from rfl]
    rw [lookupA_map_value, hstore]
    rfl

/-- C9 witness: the boundary cache at instant 5 exhibits the disagreement. -/
theorem C9_witness :
    (WF boundaryCache ∧ lookupA boundaryCache.items 0 = some ⟨7, 5⟩)
    ∧ ((Get boundaryCache 5 0).1 = (7, true)
      ∧ (Release boundaryCache 5 0).1 = (7, true)
      ∧ lookupA (Count boundaryCache 5).2.items 0 = none
      ∧ (Count boundaryCache 5).1 = (Count (Delete boundaryCache 0) 5).1
      ∧ lookupA (GetAll boundaryCache 5).1 0 = none
      ∧ lookupA (GetAll boundaryCache 5).2.items 0 = none) :=
  ⟨⟨by decide, by decide⟩,
   C9_boundary_disagreement boundaryCache 0 7 5 (by decide) (by decide)⟩

end Mcache
